import Mathlib

/-!
Verification of the damage-refinery component of wayvnc
(src/damage-refinery.c), shallowly embedded in Lean 4.

The C file computes, per 32x32 tile of a captured frame buffer, a content
hash; a tile whose hash differs from the stored hash for that tile
contributes its rectangle to the damaged region, and the stored hash is
updated.  The final region is intersected with the buffer rectangle.

The hash function `murmurhash` (from murmurhash.h) is not part of the
given sources; following the specification, which only requires a
deterministic, seed-dependent streaming hash, the development is
parameterised over an arbitrary hash function `h : HashFn` taking the row
span (as a list of 32-bit pixel words; the hashed byte spans are always
whole words) and a seed.
-/

/-- `UDIV_UP(a, b)` from util.h: division rounding up. -/
def udivUp (a b : Nat) : Nat := (a + b - 1) / b

/-- Type of the modelled `murmurhash`: row span (pixel words) and seed in,
hash out.  Modelled from the spec: murmurhash.c is not under src/; per the
spec any deterministic, seed-dependent streaming hash is acceptable. -/
abbrev HashFn := List Nat → Nat → Nat

/-- `struct wv_buffer` (the fields read by the refinery): pixel memory is
modelled as a total function from word index to 32-bit pixel word. -/
structure WvBuffer where
  width : Nat
  height : Nat
  stride : Nat
  y_inverted : Bool
  pixels : Nat → Nat

/-- `struct damage_refinery`: configured dimensions plus the flat hash
table, modelled as a total function from flat index to stored hash. -/
structure DamageRefinery where
  width : Nat
  height : Nat
  hashes : Nat → Nat

/-- `pixman_region16`, modelled semantically as a membership predicate on
pixel coordinates. -/
abbrev Region := Nat → Nat → Bool

def emptyRegion : Region := fun _ _ => false

/-- Membership of `(px, py)` in the rectangle with origin `(x, y)`,
width `w` and height `h`. -/
def inRect (x y w h px py : Nat) : Bool :=
  decide (x ≤ px) && decide (px < x + w) && decide (y ≤ py) && decide (py < y + h)

/-- `pixman_region_union_rect`. -/
def pixman_region_union_rect (r : Region) (x y w h : Nat) : Region :=
  fun px py => r px py || inRect x y w h px py

/-- `pixman_region_intersect_rect`. -/
def pixman_region_intersect_rect (r : Region) (x y w h : Nat) : Region :=
  fun px py => r px py && inRect x y w h px py

/-- `damage_refinery_init`: the table is `calloc`ed, i.e. all hashes are
zero.  (Allocation failure is not modelled.) -/
def damage_refinery_init (width height : Nat) : DamageRefinery :=
  { width := width, height := height, hashes := fun _ => 0 }

/-- `#define HASH_SEED 0` -/
def HASH_SEED : Nat := 0

/-- `damage_hash_tile`: hash the pixel rows of tile `(tx, ty)`, clipped to
the refinery's width/height, chaining each row's hash into the next row's
seed.  A y-inverted buffer is read starting from its last row with negated
stride, exactly as in the C code. -/
def damage_hash_tile (h : HashFn) (self : DamageRefinery) (tx ty : Nat)
    (buffer : WvBuffer) : Nat :=
  let ps : Int := (buffer.stride / 4 : Nat)
  let base : Int := if buffer.y_inverted then ((buffer.height : Int) - 1) * ps else 0
  let pixel_stride : Int := if buffer.y_inverted then -ps else ps
  let x_start := tx * 32
  let x_stop := min ((tx + 1) * 32) self.width
  let y_start := ty * 32
  let y_stop := min ((ty + 1) * 32) self.height
  (List.range (y_stop - y_start)).foldl (fun hash dy =>
    h ((List.range (x_stop - x_start)).map (fun (i : Nat) =>
        buffer.pixels (base + ((y_start + dy : Nat) : Int) * pixel_stride +
          ((x_start : Nat) : Int) + ((i : Nat) : Int)).toNat)) hash) 0

/-- `damage_tile_hash_ptr`: flat index of tile `(tx, ty)` in the hash
table (the C function returns a pointer to this slot). -/
def damage_tile_hash_ptr (self : DamageRefinery) (tx ty : Nat) : Nat :=
  tx + ty * udivUp self.width 32

/-- `damage_refine_tile`: hash one tile, compare to (and overwrite) the
stored hash, and union the tile's 32x32 rectangle into the region when
damaged.  Returns the updated region and refinery. -/
def damage_refine_tile (h : HashFn) (self : DamageRefinery) (refined : Region)
    (tx ty : Nat) (buffer : WvBuffer) : Region × DamageRefinery :=
  let hash := damage_hash_tile h self tx ty buffer
  let idx := damage_tile_hash_ptr self tx ty
  let is_damaged := hash ≠ self.hashes idx
  let self' : DamageRefinery :=
    { self with hashes := fun i => if i = idx then hash else self.hashes i }
  if is_damaged then
    (pixman_region_union_rect refined (tx * 32) (ty * 32) 32 32, self')
  else
    (refined, self')

/-- `damage_refine`: assert matching dimensions (modelled as `Option`:
`none` is the failed assertion), refine every tile of the grid in
row-major order, then intersect the accumulated region with the buffer
rectangle.  The `hint` parameter is unused, as in the C code
(`// TODO: Use hint`). -/
def damage_refine (h : HashFn) (self : DamageRefinery) (refined : Region)
    (hint : Region) (buffer : WvBuffer) : Option (Region × DamageRefinery) :=
  if self.width = buffer.width ∧ self.height = buffer.height then
    let twidth := udivUp self.width 32
    let theight := udivUp self.height 32
    let out := (List.range theight).foldl (fun acc ty =>
      (List.range twidth).foldl (fun acc tx =>
        damage_refine_tile h acc.2 acc.1 tx ty buffer) acc) (refined, self)
    some (pixman_region_intersect_rect out.1 0 0 self.width self.height, out.2)
  else
    none

/-! ## Logical tile content

`logicalRow` and `tileRows` extract the logical (orientation-independent)
pixel content of a tile: row `y` of the logical image is physical row `y`
for a top-down buffer and physical row `height - 1 - y` for a y-inverted
one.  `rowChain` is the chained row hashing described by the spec. -/

/-- Logical pixel row `y` of the buffer restricted to the column span of
tile column `tx` (clipped to `self.width`). -/
def logicalRow (self : DamageRefinery) (buffer : WvBuffer) (tx y : Nat) : List Nat :=
  let ps := buffer.stride / 4
  let rowBase := if buffer.y_inverted then (buffer.height - 1 - y) * ps else y * ps
  (List.range (min ((tx + 1) * 32) self.width - tx * 32)).map
    (fun i => buffer.pixels (rowBase + tx * 32 + i))

/-- The logical pixel rows of tile `(tx, ty)` (clipped to the refinery's
dimensions). -/
def tileRows (self : DamageRefinery) (buffer : WvBuffer) (tx ty : Nat) :
    List (List Nat) :=
  (List.range (min ((ty + 1) * 32) self.height - ty * 32)).map
    (fun dy => logicalRow self buffer tx (ty * 32 + dy))

/-- Chained row hashing: each row's hash is the seed of the next row's
hash; the first row uses `seed`. -/
def rowChain (h : HashFn) (seed : Nat) (rows : List (List Nat)) : Nat :=
  rows.foldl (fun hash row => h row hash) seed

/-- Modelled from the spec (for the refinement claim that edge tiles are
hashed at the full 32x32 extent): like `damage_hash_tile` but without
clipping `x_stop`/`y_stop` to the refinery's dimensions. -/
def damage_hash_tile_full (h : HashFn) (self : DamageRefinery) (tx ty : Nat)
    (buffer : WvBuffer) : Nat :=
  let ps : Int := (buffer.stride / 4 : Nat)
  let base : Int := if buffer.y_inverted then ((buffer.height : Int) - 1) * ps else 0
  let pixel_stride : Int := if buffer.y_inverted then -ps else ps
  let x_start := tx * 32
  let x_stop := (tx + 1) * 32
  let y_start := ty * 32
  let y_stop := (ty + 1) * 32
  (List.range (y_stop - y_start)).foldl (fun hash dy =>
    h ((List.range (x_stop - x_start)).map (fun (i : Nat) =>
        buffer.pixels (base + ((y_start + dy : Nat) : Int) * pixel_stride +
          ((x_start : Nat) : Int) + ((i : Nat) : Int)).toNat)) hash) 0

/-! ## Concrete hash instances used in witnesses and counterexamples -/

/-- A trivially cheap deterministic, seed-dependent hash: counts hashed
rows.  Used to evaluate the embedding on concrete inputs. -/
def hashRowCount : HashFn := fun _ seed => seed + 1

/-- Injective encoding of a list of naturals. -/
def encodeL : List Nat → Nat
  | [] => 0
  | a :: as => Nat.pair a (encodeL as) + 1

/-- A deterministic, seed-dependent hash that is jointly injective in the
row span and the seed. -/
def hashInj : HashFn := fun row seed => encodeL (seed :: row)


/-! ## Concrete inputs used in witnesses and counterexamples -/

/-- A 1x1 top-down buffer of zero pixels. -/
def bOne : WvBuffer :=
  { width := 1, height := 1, stride := 4, y_inverted := false, pixels := fun _ => 0 }

/-- The same 1x1 pixel content stored bottom-up. -/
def bOneInv : WvBuffer :=
  { width := 1, height := 1, stride := 4, y_inverted := true, pixels := fun _ => 0 }

/-- A freshly initialised 1x1 refinery. -/
def refOne : DamageRefinery := damage_refinery_init 1 1

/-- The all-points region. -/
def rFull : Region := fun _ _ => true

/-- A 1x33 top-down buffer of zero pixels (two vertically stacked tiles). -/
def prevW : WvBuffer :=
  { width := 1, height := 33, stride := 4, y_inverted := false, pixels := fun _ => 0 }

/-- `prevW` with only the pixel of tile `(0, 1)` changed. -/
def curW : WvBuffer :=
  { width := 1, height := 33, stride := 4, y_inverted := false,
    pixels := fun i => if i = 32 then 1 else 0 }

/-- A 1x33 refinery whose stored hashes reflect `prevW` under `hashInj`. -/
def sW : DamageRefinery :=
  { width := 1, height := 33,
    hashes := fun i => damage_hash_tile hashInj (damage_refinery_init 1 33) 0 i prevW }

/-- One step of the tile loop, as a fold step over tile coordinates. -/
def refineStep (h : HashFn) (b : WvBuffer) (acc : Region × DamageRefinery)
    (p : Nat × Nat) : Region × DamageRefinery :=
  damage_refine_tile h acc.2 acc.1 p.1 p.2 b

/-- Row-major list of tile coordinates of a `tw` by `th` grid. -/
def tileList (tw th : Nat) : List (Nat × Nat) :=
  (List.range th).flatMap (fun ty => (List.range tw).map (fun tx => (tx, ty)))

/-- The (region, refinery) pair produced by the tile loop of
`damage_refine`, before the final intersection. -/
def refineOut (h : HashFn) (s : DamageRefinery) (r : Region) (b : WvBuffer) :
    Region × DamageRefinery :=
  (tileList (udivUp s.width 32) (udivUp s.height 32)).foldl (refineStep h b) (r, s)

/-! ## Proof infrastructure -/

/-- `damage_hash_tile` reads only the refinery's dimensions, never its
hash table. -/
theorem damage_hash_tile_congr (h : HashFn) (s1 s2 : DamageRefinery) (tx ty : Nat)
    (b : WvBuffer) (hw : s1.width = s2.width) (hh : s1.height = s2.height) :
    damage_hash_tile h s1 tx ty b = damage_hash_tile h s2 tx ty b := by
  simp only [damage_hash_tile, hw, hh]

/-- `damage_tile_hash_ptr` reads only the refinery's width. -/
theorem damage_tile_hash_ptr_congr (s1 s2 : DamageRefinery) (tx ty : Nat)
    (hw : s1.width = s2.width) :
    damage_tile_hash_ptr s1 tx ty = damage_tile_hash_ptr s2 tx ty := by
  simp only [damage_tile_hash_ptr, hw]

theorem foldl_congr_mem {α β : Type} (f g : β → α → β) :
    ∀ (l : List α) (b : β), (∀ a ∈ l, ∀ x, f x a = g x a) →
      l.foldl f b = l.foldl g b
  | [], _, _ => rfl
  | a :: l, b, hfg => by
    simp only [List.foldl_cons]
    rw [hfg a (List.mem_cons_self a l)]
    exact foldl_congr_mem f g l _ (fun a' ha' x => hfg a' (List.mem_cons_of_mem _ ha') x)

theorem any_congr_mem {α : Type} (f g : α → Bool) :
    ∀ l : List α, (∀ a ∈ l, f a = g a) → l.any f = l.any g
  | [], _ => rfl
  | a :: l, hfg => by
    simp only [List.any_cons]
    rw [hfg a (List.mem_cons_self a l)]
    rw [any_congr_mem f g l (fun a' ha' => hfg a' (List.mem_cons_of_mem _ ha'))]

/-- The store produced by `damage_refine_tile`: the tile's slot is
overwritten with the freshly computed hash (even when equal). -/
theorem damage_refine_tile_snd (h : HashFn) (s : DamageRefinery) (r : Region)
    (tx ty : Nat) (b : WvBuffer) :
    (damage_refine_tile h s r tx ty b).2 =
      { s with hashes := fun i => if i = damage_tile_hash_ptr s tx ty
          then damage_hash_tile h s tx ty b else s.hashes i } := by
  unfold damage_refine_tile
  dsimp only
  split <;> rfl

/-- The region produced by `damage_refine_tile`: the input region,
together with the tile rectangle when the hash differs from the stored
one. -/
theorem damage_refine_tile_fst (h : HashFn) (s : DamageRefinery) (r : Region)
    (tx ty : Nat) (b : WvBuffer) :
    (damage_refine_tile h s r tx ty b).1 = fun px py =>
      r px py ||
        (decide (damage_hash_tile h s tx ty b ≠
            s.hashes (damage_tile_hash_ptr s tx ty)) &&
          inRect (tx * 32) (ty * 32) 32 32 px py) := by
  unfold damage_refine_tile
  dsimp only
  split
  · next hd =>
      funext px py
      simp [pixman_region_union_rect, hd]
  · next hd =>
      funext px py
      simp [hd]

/-- The nested row-major tile loops of `damage_refine` are a single fold
over the row-major tile list. -/
theorem nested_fold_eq (h : HashFn) (b : WvBuffer) (tw : Nat) :
    ∀ (L : List Nat) (a : Region × DamageRefinery),
      L.foldl (fun acc ty => (List.range tw).foldl (fun acc tx =>
          damage_refine_tile h acc.2 acc.1 tx ty b) acc) a
      = (L.flatMap (fun ty => (List.range tw).map (fun tx => (tx, ty)))).foldl
          (refineStep h b) a
  | [], _ => rfl
  | ty :: L, a => by
    simp only [List.foldl_cons, List.flatMap_cons, List.foldl_append, List.foldl_map]
    rw [← nested_fold_eq h b tw L]
    rfl

theorem damage_refine_tile_width (h : HashFn) (s : DamageRefinery) (r : Region)
    (tx ty : Nat) (b : WvBuffer) :
    (damage_refine_tile h s r tx ty b).2.width = s.width := by
  rw [damage_refine_tile_snd]

theorem damage_refine_tile_height (h : HashFn) (s : DamageRefinery) (r : Region)
    (tx ty : Nat) (b : WvBuffer) :
    (damage_refine_tile h s r tx ty b).2.height = s.height := by
  rw [damage_refine_tile_snd]

theorem refineStep_width (h : HashFn) (b : WvBuffer) (a : Region × DamageRefinery)
    (p : Nat × Nat) : (refineStep h b a p).2.width = a.2.width :=
  damage_refine_tile_width h a.2 a.1 p.1 p.2 b

theorem refineStep_height (h : HashFn) (b : WvBuffer) (a : Region × DamageRefinery)
    (p : Nat × Nat) : (refineStep h b a p).2.height = a.2.height :=
  damage_refine_tile_height h a.2 a.1 p.1 p.2 b

theorem refineStep_ptr (h : HashFn) (b : WvBuffer) (a : Region × DamageRefinery)
    (p : Nat × Nat) (tx ty : Nat) :
    damage_tile_hash_ptr (refineStep h b a p).2 tx ty = damage_tile_hash_ptr a.2 tx ty :=
  damage_tile_hash_ptr_congr _ a.2 tx ty (refineStep_width h b a p)

theorem refineStep_hash (hf : HashFn) (b : WvBuffer) (a : Region × DamageRefinery)
    (p : Nat × Nat) (tx ty : Nat) :
    damage_hash_tile hf (refineStep hf b a p).2 tx ty b = damage_hash_tile hf a.2 tx ty b :=
  damage_hash_tile_congr hf _ a.2 tx ty b (refineStep_width hf b a p) (refineStep_height hf b a p)

theorem refineStep_hashes (h : HashFn) (b : WvBuffer) (a : Region × DamageRefinery)
    (p : Nat × Nat) (i : Nat) :
    (refineStep h b a p).2.hashes i =
      (if i = damage_tile_hash_ptr a.2 p.1 p.2 then damage_hash_tile h a.2 p.1 p.2 b
       else a.2.hashes i) := by
  show (damage_refine_tile h a.2 a.1 p.1 p.2 b).2.hashes i = _
  rw [damage_refine_tile_snd]

/-- The tile loop does not change the refinery's dimensions. -/
theorem refine_fold_dims (h : HashFn) (b : WvBuffer) :
    ∀ (L : List (Nat × Nat)) (a : Region × DamageRefinery),
      (L.foldl (refineStep h b) a).2.width = a.2.width ∧
      (L.foldl (refineStep h b) a).2.height = a.2.height
  | [], _ => ⟨rfl, rfl⟩
  | p :: L, a => by
    simp only [List.foldl_cons]
    obtain ⟨hW, hH⟩ := refine_fold_dims h b L (refineStep h b a p)
    exact ⟨hW.trans (damage_refine_tile_width h a.2 a.1 p.1 p.2 b),
           hH.trans (damage_refine_tile_height h a.2 a.1 p.1 p.2 b)⟩

theorem damage_refine_tile_fst_apply (h : HashFn) (s : DamageRefinery) (r : Region)
    (tx ty : Nat) (b : WvBuffer) (px py : Nat) :
    (damage_refine_tile h s r tx ty b).1 px py =
      (r px py ||
        (decide (damage_hash_tile h s tx ty b ≠
            s.hashes (damage_tile_hash_ptr s tx ty)) &&
          inRect (tx * 32) (ty * 32) 32 32 px py)) := by
  rw [damage_refine_tile_fst]

/-- Hash slots whose flat index belongs to no tile of `L` are untouched by
the tile loop. -/
theorem refine_fold_hashes_other (h : HashFn) (b : WvBuffer) :
    ∀ (L : List (Nat × Nat)) (a : Region × DamageRefinery) (i : Nat),
      (∀ p ∈ L, damage_tile_hash_ptr a.2 p.1 p.2 ≠ i) →
      (L.foldl (refineStep h b) a).2.hashes i = a.2.hashes i
  | [], _, _, _ => rfl
  | p :: L, a, i, hne => by
    simp only [List.foldl_cons]
    have htail : ∀ q ∈ L, damage_tile_hash_ptr (refineStep h b a p).2 q.1 q.2 ≠ i := by
      intro q hq
      rw [refineStep_ptr]
      exact hne q (List.mem_cons_of_mem _ hq)
    rw [refine_fold_hashes_other h b L (refineStep h b a p) i htail]
    rw [refineStep_hashes]
    exact if_neg (fun hi => hne p (List.mem_cons_self p L) hi.symm)

/-- After the tile loop, the slot of each visited tile holds the hash of
that tile's content, computed against the initial store. -/
theorem refine_fold_hashes_mem (h : HashFn) (b : WvBuffer) :
    ∀ (L : List (Nat × Nat)) (a : Region × DamageRefinery),
      L.Pairwise (fun p q =>
        damage_tile_hash_ptr a.2 p.1 p.2 ≠ damage_tile_hash_ptr a.2 q.1 q.2) →
      ∀ p ∈ L,
        (L.foldl (refineStep h b) a).2.hashes (damage_tile_hash_ptr a.2 p.1 p.2)
          = damage_hash_tile h a.2 p.1 p.2 b
  | [], _, _, p, hp => absurd hp (List.not_mem_nil p)
  | q :: L, a, hpw, p, hp => by
    simp only [List.foldl_cons]
    rw [List.pairwise_cons] at hpw
    obtain ⟨hq, hL⟩ := hpw
    rcases List.mem_cons.mp hp with rfl | hpL
    · have htail : ∀ x ∈ L, damage_tile_hash_ptr (refineStep h b a p).2 x.1 x.2 ≠
          damage_tile_hash_ptr a.2 p.1 p.2 := by
        intro x hx
        rw [refineStep_ptr]
        exact fun he => hq x hx he.symm
      rw [refine_fold_hashes_other h b L (refineStep h b a p) _ htail]
      rw [refineStep_hashes]
      exact if_pos rfl
    · have hpw1 : L.Pairwise (fun x y =>
          damage_tile_hash_ptr (refineStep h b a q).2 x.1 x.2 ≠
          damage_tile_hash_ptr (refineStep h b a q).2 y.1 y.2) := by
        refine hL.imp ?_
        intro x y hxy
        rw [refineStep_ptr, refineStep_ptr]
        exact hxy
      have hrec := refine_fold_hashes_mem h b L (refineStep h b a q) hpw1 p hpL
      rw [refineStep_ptr] at hrec
      rw [refineStep_hash] at hrec
      exact hrec

theorem refineStep_fst_apply (h : HashFn) (b : WvBuffer) (a : Region × DamageRefinery)
    (p : Nat × Nat) (px py : Nat) :
    (refineStep h b a p).1 px py =
      (a.1 px py ||
        (decide (damage_hash_tile h a.2 p.1 p.2 b ≠
            a.2.hashes (damage_tile_hash_ptr a.2 p.1 p.2)) &&
          inRect (p.1 * 32) (p.2 * 32) 32 32 px py)) :=
  damage_refine_tile_fst_apply h a.2 a.1 p.1 p.2 b px py

/-- After the tile loop, a point is in the region iff it was in the input
region or lies in the rectangle of a visited tile whose freshly computed
hash differs from the hash initially stored for it. -/
theorem refine_fold_region (h : HashFn) (b : WvBuffer) :
    ∀ (L : List (Nat × Nat)) (a : Region × DamageRefinery),
      L.Pairwise (fun p q =>
        damage_tile_hash_ptr a.2 p.1 p.2 ≠ damage_tile_hash_ptr a.2 q.1 q.2) →
      ∀ px py, (L.foldl (refineStep h b) a).1 px py
        = (a.1 px py || L.any (fun p =>
            decide (damage_hash_tile h a.2 p.1 p.2 b ≠
              a.2.hashes (damage_tile_hash_ptr a.2 p.1 p.2)) &&
            inRect (p.1 * 32) (p.2 * 32) 32 32 px py))
  | [], _, _, px, py => by simp
  | q :: L, a, hpw, px, py => by
    simp only [List.foldl_cons, List.any_cons]
    rw [List.pairwise_cons] at hpw
    obtain ⟨hq, hL⟩ := hpw
    have hpw1 : L.Pairwise (fun x y =>
        damage_tile_hash_ptr (refineStep h b a q).2 x.1 x.2 ≠
        damage_tile_hash_ptr (refineStep h b a q).2 y.1 y.2) := by
      refine hL.imp ?_
      intro x y hxy
      rw [refineStep_ptr, refineStep_ptr]
      exact hxy
    rw [refine_fold_region h b L (refineStep h b a q) hpw1 px py]
    have hany : L.any (fun p =>
          decide (damage_hash_tile h (refineStep h b a q).2 p.1 p.2 b ≠
            (refineStep h b a q).2.hashes
              (damage_tile_hash_ptr (refineStep h b a q).2 p.1 p.2)) &&
          inRect (p.1 * 32) (p.2 * 32) 32 32 px py)
        = L.any (fun p =>
          decide (damage_hash_tile h a.2 p.1 p.2 b ≠
            a.2.hashes (damage_tile_hash_ptr a.2 p.1 p.2)) &&
          inRect (p.1 * 32) (p.2 * 32) 32 32 px py) := by
      apply any_congr_mem
      intro p hp
      rw [refineStep_ptr, refineStep_hash, refineStep_hashes]
      rw [if_neg (fun he => hq p hp he.symm)]
    rw [hany, refineStep_fst_apply, Bool.or_assoc]

theorem tileList_mem (tw th : Nat) (p : Nat × Nat) :
    p ∈ tileList tw th ↔ p.1 < tw ∧ p.2 < th := by
  obtain ⟨tx, ty⟩ := p
  simp only [tileList, List.mem_flatMap, List.mem_map, List.mem_range, Prod.mk.injEq]
  constructor
  · rintro ⟨ty', hty', tx', htx', rfl, rfl⟩
    exact ⟨htx', hty'⟩
  · rintro ⟨htx, hty⟩
    exact ⟨ty, hty, tx, htx, rfl, rfl⟩

/-- The flat index `tx + ty * tw` is injective on the tile grid. -/
theorem tile_ptr_inj (tw tx1 ty1 tx2 ty2 : Nat) (h1 : tx1 < tw) (h2 : tx2 < tw)
    (he : tx1 + ty1 * tw = tx2 + ty2 * tw) : tx1 = tx2 ∧ ty1 = ty2 := by
  have hm := congrArg (· % tw) he
  simp only [Nat.add_mul_mod_self_right] at hm
  rw [Nat.mod_eq_of_lt h1, Nat.mod_eq_of_lt h2] at hm
  subst hm
  have htw : 0 < tw := Nat.lt_of_le_of_lt (Nat.zero_le _) h1
  exact ⟨rfl, Nat.eq_of_mul_eq_mul_right htw (by omega)⟩

theorem flat_pairwise (tw : Nat) :
    ∀ L : List Nat, L.Pairwise (· ≠ ·) →
      (L.flatMap (fun ty => (List.range tw).map (fun tx => (tx, ty)))).Pairwise
        (fun p q : Nat × Nat => p.1 + p.2 * tw ≠ q.1 + q.2 * tw)
  | [], _ => List.Pairwise.nil
  | ty :: L, hp => by
    rw [List.flatMap_cons, List.pairwise_append]
    rw [List.pairwise_cons] at hp
    obtain ⟨hty, hL⟩ := hp
    refine ⟨?_, flat_pairwise tw L hL, ?_⟩
    · rw [List.pairwise_map]
      refine List.Pairwise.imp ?_ (List.nodup_range tw)
      intro a b hne he
      dsimp only at he
      exact hne (by omega)
    · rintro p hp1 q hq2
      rw [List.mem_map] at hp1
      obtain ⟨tx1, htx1, rfl⟩ := hp1
      rw [List.mem_flatMap] at hq2
      obtain ⟨ty2, hty2, hq⟩ := hq2
      rw [List.mem_map] at hq
      obtain ⟨tx2, htx2, rfl⟩ := hq
      intro he
      exact hty ty2 hty2
        (tile_ptr_inj tw tx1 ty tx2 ty2 (List.mem_range.mp htx1)
          (List.mem_range.mp htx2) he).2

theorem tileList_pairwise (tw th : Nat) :
    (tileList tw th).Pairwise
      (fun p q : Nat × Nat => p.1 + p.2 * tw ≠ q.1 + q.2 * tw) :=
  flat_pairwise tw (List.range th) (List.nodup_range th)

/-- With matching dimensions, `damage_refine` succeeds and equals the tile
fold over the row-major tile list, intersected with the buffer rectangle. -/
theorem damage_refine_eq (h : HashFn) (s : DamageRefinery) (r hint : Region)
    (b : WvBuffer) (hw : s.width = b.width) (hh : s.height = b.height) :
    damage_refine h s r hint b =
      some (pixman_region_intersect_rect
              ((tileList (udivUp s.width 32) (udivUp s.height 32)).foldl
                (refineStep h b) (r, s)).1 0 0 s.width s.height,
            ((tileList (udivUp s.width 32) (udivUp s.height 32)).foldl
              (refineStep h b) (r, s)).2) := by
  unfold damage_refine
  rw [if_pos ⟨hw, hh⟩]
  dsimp only
  rw [nested_fold_eq h b (udivUp s.width 32) (List.range (udivUp s.height 32)) (r, s)]
  rfl

/-- Tiles of the grid have pairwise distinct hash-table slots. -/
theorem damage_refine_pairwise (s : DamageRefinery) :
    (tileList (udivUp s.width 32) (udivUp s.height 32)).Pairwise
      (fun p q => damage_tile_hash_ptr s p.1 p.2 ≠ damage_tile_hash_ptr s q.1 q.2) := by
  refine (tileList_pairwise (udivUp s.width 32) (udivUp s.height 32)).imp ?_
  intro p q hne
  simpa [damage_tile_hash_ptr] using hne

/-- With matching dimensions `damage_refine` succeeds, producing the tile
loop's result with the region intersected with the buffer rectangle. -/
theorem damage_refine_out (h : HashFn) (s : DamageRefinery) (r hint : Region)
    (b : WvBuffer) (hw : s.width = b.width) (hh : s.height = b.height) :
    damage_refine h s r hint b =
      some (pixman_region_intersect_rect (refineOut h s r b).1 0 0
              s.width s.height,
            (refineOut h s r b).2) :=
  damage_refine_eq h s r hint b hw hh

theorem refineOut_width (h : HashFn) (s : DamageRefinery) (r : Region)
    (b : WvBuffer) : (refineOut h s r b).2.width = s.width :=
  (refine_fold_dims h b _ (r, s)).1

theorem refineOut_height (h : HashFn) (s : DamageRefinery) (r : Region)
    (b : WvBuffer) : (refineOut h s r b).2.height = s.height :=
  (refine_fold_dims h b _ (r, s)).2

/-- After the tile loop, every in-grid tile's slot holds the hash of its
content in this buffer. -/
theorem refineOut_hashes (h : HashFn) (s : DamageRefinery) (r : Region)
    (b : WvBuffer) (tx ty : Nat) (htx : tx < udivUp s.width 32)
    (hty : ty < udivUp s.height 32) :
    (refineOut h s r b).2.hashes (damage_tile_hash_ptr s tx ty)
      = damage_hash_tile h s tx ty b :=
  refine_fold_hashes_mem h b _ (r, s) (damage_refine_pairwise s) (tx, ty)
    ((tileList_mem _ _ (tx, ty)).mpr ⟨htx, hty⟩)

theorem refineOut_region (h : HashFn) (s : DamageRefinery) (r : Region)
    (b : WvBuffer) (px py : Nat) :
    (refineOut h s r b).1 px py
      = (r px py || (tileList (udivUp s.width 32) (udivUp s.height 32)).any
          (fun p =>
            decide (damage_hash_tile h s p.1 p.2 b ≠
              s.hashes (damage_tile_hash_ptr s p.1 p.2)) &&
            inRect (p.1 * 32) (p.2 * 32) 32 32 px py)) :=
  refine_fold_region h b _ (r, s) (damage_refine_pairwise s) px py

/-- Membership form of `refineOut_region`. -/
theorem refineOut_region_iff (h : HashFn) (s : DamageRefinery) (r : Region)
    (b : WvBuffer) (px py : Nat) :
    (refineOut h s r b).1 px py = true ↔
      (r px py = true ∨ ∃ tx ty, tx < udivUp s.width 32 ∧ ty < udivUp s.height 32 ∧
        damage_hash_tile h s tx ty b ≠ s.hashes (damage_tile_hash_ptr s tx ty) ∧
        inRect (tx * 32) (ty * 32) 32 32 px py = true) := by
  rw [refineOut_region]
  simp only [Bool.or_eq_true, List.any_eq_true, Bool.and_eq_true, decide_eq_true_eq]
  constructor
  · rintro (hr | ⟨p, hp, hd, hin⟩)
    · exact Or.inl hr
    · obtain ⟨htx, hty⟩ := (tileList_mem _ _ p).mp hp
      exact Or.inr ⟨p.1, p.2, htx, hty, hd, hin⟩
  · rintro (hr | ⟨tx, ty, htx, hty, hd, hin⟩)
    · exact Or.inl hr
    · exact Or.inr ⟨(tx, ty), (tileList_mem _ _ (tx, ty)).mpr ⟨htx, hty⟩, hd, hin⟩

/-- The strided (possibly y-inverted) row walk of `damage_hash_tile` hashes
exactly the logical rows of the tile, chained from the fixed seed. -/
theorem damage_hash_tile_eq_rowChain (h : HashFn) (self : DamageRefinery)
    (tx ty : Nat) (b : WvBuffer) (hh : self.height = b.height) :
    damage_hash_tile h self tx ty b = rowChain h HASH_SEED (tileRows self b tx ty) := by
  unfold damage_hash_tile rowChain tileRows HASH_SEED
  rw [List.foldl_map]
  dsimp only
  apply foldl_congr_mem
  intro dy hdy hash
  rw [List.mem_range] at hdy
  congr 1
  unfold logicalRow
  dsimp only
  apply List.map_congr_left
  intro i _
  apply congrArg b.pixels
  cases hinv : b.y_inverted with
  | false =>
      simp only [hinv, Bool.false_eq_true, if_false]
      have : (0 : Int) + ((ty * 32 + dy : Nat) : Int) * ((b.stride / 4 : Nat) : Int) +
          ((tx * 32 : Nat) : Int) + ((i : Nat) : Int) =
          (((ty * 32 + dy) * (b.stride / 4) + tx * 32 + i : Nat) : Int) := by
        push_cast
        ring
      rw [this, Int.toNat_natCast]
  | true =>
      simp only [hinv, if_true]
      have hy : ty * 32 + dy < b.height := by omega
      have hcast : ((b.height - 1 - (ty * 32 + dy) : Nat) : Int) =
          (b.height : Int) - 1 - ((ty * 32 + dy : Nat) : Int) := by omega
      have : ((b.height : Int) - 1) * ((b.stride / 4 : Nat) : Int) +
          ((ty * 32 + dy : Nat) : Int) * -((b.stride / 4 : Nat) : Int) +
          ((tx * 32 : Nat) : Int) + ((i : Nat) : Int) =
          (((b.height - 1 - (ty * 32 + dy)) * (b.stride / 4) + tx * 32 + i : Nat) : Int) := by
        push_cast [hcast]
        ring
      rw [this, Int.toNat_natCast]

/-- Row lengths of a tile depend only on the geometry, not on the buffer. -/
theorem logicalRow_length (self : DamageRefinery) (b : WvBuffer) (tx y : Nat) :
    (logicalRow self b tx y).length = min ((tx + 1) * 32) self.width - tx * 32 := by
  simp [logicalRow]

theorem tileRows_length (self : DamageRefinery) (b : WvBuffer) (tx ty : Nat) :
    (tileRows self b tx ty).length = min ((ty + 1) * 32) self.height - ty * 32 := by
  simp [tileRows]

theorem tileRows_shape (self : DamageRefinery) (b1 b2 : WvBuffer) (tx ty : Nat) :
    (tileRows self b1 tx ty).map List.length = (tileRows self b2 tx ty).map List.length := by
  simp [tileRows, List.map_map, Function.comp, logicalRow_length]

/-- Lists of lists with the same row-length profile and equal
concatenations are equal. -/
theorem eq_of_flatten_eq :
    ∀ (A B : List (List Nat)), A.map List.length = B.map List.length →
      A.flatten = B.flatten → A = B
  | [], [], _, _ => rfl
  | a :: A, b :: B, hlen, hjoin => by
    simp only [List.map_cons, List.cons.injEq] at hlen
    simp only [List.flatten_cons] at hjoin
    obtain ⟨hab, hAB⟩ := List.append_inj hjoin hlen.1
    rw [hab, eq_of_flatten_eq A B hlen.2 hAB]

/-- Chained hashing with a jointly injective hash function is injective on
row lists of equal length (together with the seed). -/
theorem rowChain_inj (h : HashFn)
    (hinj : ∀ r1 s1 r2 s2, h r1 s1 = h r2 s2 → r1 = r2 ∧ s1 = s2) :
    ∀ (A B : List (List Nat)) (s1 s2 : Nat), A.length = B.length →
      rowChain h s1 A = rowChain h s2 B → A = B ∧ s1 = s2
  | [], [], s1, s2, _, hc => ⟨rfl, hc⟩
  | a :: A, b :: B, s1, s2, hlen, hc => by
    simp only [List.length_cons, Nat.succ.injEq] at hlen
    simp only [rowChain, List.foldl_cons] at hc
    obtain ⟨hAB, hseed⟩ := rowChain_inj h hinj A B (h a s1) (h b s2) hlen hc
    obtain ⟨hab, hs⟩ := hinj a s1 b s2 hseed
    exact ⟨by rw [hab, hAB], hs⟩

theorem encodeL_inj : ∀ xs ys : List Nat, encodeL xs = encodeL ys → xs = ys
  | [], [], _ => rfl
  | [], y :: ys, he => absurd he.symm (by simp [encodeL])
  | x :: xs, [], he => absurd he (by simp [encodeL])
  | x :: xs, y :: ys, he => by
    simp only [encodeL, Nat.add_right_cancel_iff] at he
    obtain ⟨hxy, hrest⟩ := Nat.pair_eq_pair.mp he
    rw [hxy, encodeL_inj xs ys hrest]

/-- `hashInj` is jointly injective in row span and seed. -/
theorem hashInj_injective :
    ∀ r1 s1 r2 s2, hashInj r1 s1 = hashInj r2 s2 → r1 = r2 ∧ s1 = s2 := by
  intro r1 s1 r2 s2 he
  have := encodeL_inj (s1 :: r1) (s2 :: r2) he
  simp only [List.cons.injEq] at this
  exact ⟨this.2, this.1⟩

/-! ## Claims -/

/-- C4: `damage_refine` requires the buffer's dimensions to equal the
refinery's; a mismatching call fails the assertion (modelled as `none`)
and is never silently truncated or padded, while under the precondition
the assertion holds and the rest of `refine` executes (result `some`). -/
theorem c4_dimension_mismatch_fails_fast (h : HashFn) (s : DamageRefinery)
    (r hint : Region) (b : WvBuffer) :
    damage_refine h s r hint b = none ↔
      ¬(s.width = b.width ∧ s.height = b.height) := by
  unfold damage_refine
  split
  · next hc => simp [hc]
  · next hc => simp [hc]

/-- C9: the result of `damage_refine` is a pure function of the buffer and
the prior refinery state alone; in particular the hint region never
influences the damaged region or the hash-store update. -/
theorem c9_hint_irrelevant (h : HashFn) (s : DamageRefinery) (r : Region)
    (hint1 hint2 : Region) (b : WvBuffer) :
    damage_refine h s r hint1 b = damage_refine h s r hint2 b := rfl

/-- C10: after a successful `damage_refine`, the stored hash of every tile
coordinate of the grid equals the hash just computed for that tile's
content in this buffer (slots of undamaged tiles are overwritten with an
equal value). -/
theorem c10_store_reflects_frame (h : HashFn) (s : DamageRefinery)
    (r hint : Region) (b : WvBuffer) (hw : s.width = b.width)
    (hh : s.height = b.height) :
    ∃ out, damage_refine h s r hint b = some out ∧
      ∀ tx ty, tx < udivUp s.width 32 → ty < udivUp s.height 32 →
        out.2.hashes (damage_tile_hash_ptr s tx ty) = damage_hash_tile h s tx ty b := by
  refine ⟨_, damage_refine_out h s r hint b hw hh, ?_⟩
  intro tx ty htx hty
  exact refineOut_hashes h s r b tx ty htx hty

/-- C10 witness. -/
theorem c10_store_reflects_frame_witness :
    ∃ out, damage_refine hashRowCount refOne emptyRegion emptyRegion bOne = some out ∧
      ∀ tx ty, tx < udivUp refOne.width 32 → ty < udivUp refOne.height 32 →
        out.2.hashes (damage_tile_hash_ptr refOne tx ty)
          = damage_hash_tile hashRowCount refOne tx ty bOne :=
  c10_store_reflects_frame hashRowCount refOne emptyRegion emptyRegion bOne
    (by decide) (by decide)

/-- C2: refining twice in succession with an unchanged buffer yields an
empty damaged region on the second call (which starts from an empty
output region). -/
theorem c2_idempotent_on_unchanged (h : HashFn) (s : DamageRefinery)
    (r0 hint1 hint2 : Region) (b : WvBuffer) (hw : s.width = b.width)
    (hh : s.height = b.height) :
    ∃ out1 out2, damage_refine h s r0 hint1 b = some out1 ∧
      damage_refine h out1.2 emptyRegion hint2 b = some out2 ∧
      ∀ px py, out2.1 px py = false := by
  refine ⟨(pixman_region_intersect_rect (refineOut h s r0 b).1 0 0 s.width s.height,
           (refineOut h s r0 b).2),
          (pixman_region_intersect_rect
             (refineOut h (refineOut h s r0 b).2 emptyRegion b).1 0 0
             (refineOut h s r0 b).2.width (refineOut h s r0 b).2.height,
           (refineOut h (refineOut h s r0 b).2 emptyRegion b).2),
          damage_refine_out h s r0 hint1 b hw hh, ?_, ?_⟩
  · exact damage_refine_out h (refineOut h s r0 b).2 emptyRegion hint2 b
      ((refineOut_width h s r0 b).trans hw)
      ((refineOut_height h s r0 b).trans hh)
  · intro px py
    show ((refineOut h (refineOut h s r0 b).2 emptyRegion b).1 px py && _) = false
    have hreg := refineOut_region h (refineOut h s r0 b).2 emptyRegion b px py
    have hany : (tileList (udivUp (refineOut h s r0 b).2.width 32)
        (udivUp (refineOut h s r0 b).2.height 32)).any
        (fun p =>
          decide (damage_hash_tile h (refineOut h s r0 b).2 p.1 p.2 b ≠
            (refineOut h s r0 b).2.hashes
              (damage_tile_hash_ptr (refineOut h s r0 b).2 p.1 p.2)) &&
          inRect (p.1 * 32) (p.2 * 32) 32 32 px py) = false := by
      rw [List.any_eq_false]
      intro p hp
      rw [tileList_mem] at hp
      rw [refineOut_width, refineOut_height] at hp
      have h1 : damage_hash_tile h (refineOut h s r0 b).2 p.1 p.2 b
          = damage_hash_tile h s p.1 p.2 b :=
        damage_hash_tile_congr h _ s p.1 p.2 b (refineOut_width h s r0 b)
          (refineOut_height h s r0 b)
      have h2 : damage_tile_hash_ptr (refineOut h s r0 b).2 p.1 p.2
          = damage_tile_hash_ptr s p.1 p.2 :=
        damage_tile_hash_ptr_congr _ s p.1 p.2 (refineOut_width h s r0 b)
      rw [h1, h2, refineOut_hashes h s r0 b p.1 p.2 hp.1 hp.2]
      simp
    rw [hreg, hany]
    simp [emptyRegion]

/-- C2 witness. -/
theorem c2_idempotent_on_unchanged_witness :
    ∃ out1 out2, damage_refine hashRowCount refOne emptyRegion emptyRegion bOne = some out1 ∧
      damage_refine hashRowCount out1.2 emptyRegion emptyRegion bOne = some out2 ∧
      ∀ px py, out2.1 px py = false :=
  c2_idempotent_on_unchanged hashRowCount refOne emptyRegion emptyRegion emptyRegion bOne
    (by decide) (by decide)

/-- C8 (amended): within the buffer rectangle, `damage_refine` only adds
to the caller's accumulated region — every point of the input region that
lies inside `(0, 0, width, height)` is still in the output region. -/
theorem c8_monotone_within_bounds (h : HashFn) (s : DamageRefinery)
    (r hint : Region) (b : WvBuffer) (hw : s.width = b.width)
    (hh : s.height = b.height) (px py : Nat) (hpx : px < s.width)
    (hpy : py < s.height) (hr : r px py = true) :
    ∃ out, damage_refine h s r hint b = some out ∧ out.1 px py = true := by
  refine ⟨_, damage_refine_out h s r hint b hw hh, ?_⟩
  show ((refineOut h s r b).1 px py && inRect 0 0 s.width s.height px py) = true
  rw [refineOut_region h s r b px py, hr]
  simp only [Bool.true_or, Bool.true_and]
  simp [inRect, hpx, hpy]

/-- C8 witness. -/
theorem c8_monotone_within_bounds_witness :
    ∃ out, damage_refine hashRowCount refOne rFull emptyRegion bOne = some out ∧
      out.1 0 0 = true :=
  c8_monotone_within_bounds hashRowCount refOne rFull emptyRegion bOne
    (by decide) (by decide) 0 0 (by decide) (by decide) (by decide)

/-- C8 counterexample: the final intersection with the buffer rectangle
clips the caller's own accumulated region, so a caller rectangle lying
outside the buffer is not preserved: point `(5, 5)` is in the input
region of a 1x1 refine call but not in the output region. -/
theorem c8_counterexample :
    rFull 5 5 = true ∧
      (damage_refine hashRowCount refOne rFull emptyRegion bOne).map
        (fun out => out.1 5 5) = some false := by
  constructor
  · rfl
  · decide

/-- C5 counterexample: for a 1x1 buffer the single (edge) tile is hashed
over the in-bounds 1x1 extent only, not over the full 32x32 tile extent:
the code's hash differs from the full-extent hash. -/
theorem c5_counterexample :
    damage_hash_tile hashRowCount refOne 0 0 bOne ≠
      damage_hash_tile_full hashRowCount refOne 0 0 bOne := by
  decide

/-- C5 (amended): an edge tile is hashed over only the in-bounds part of
its extent — the hash equals the chained hash of the tile's logical rows
clipped to the buffer's width and height — and the accumulated output
region is intersected with the exact buffer rectangle after all tiles are
processed, so every reported point lies inside `(0, 0, width, height)`. -/
theorem c5_edge_tiles_clipped (h : HashFn) (s : DamageRefinery)
    (r hint : Region) (b : WvBuffer) (hw : s.width = b.width)
    (hh : s.height = b.height) :
    (∀ tx ty, damage_hash_tile h s tx ty b
        = rowChain h HASH_SEED (tileRows s b tx ty)) ∧
    (∀ out, damage_refine h s r hint b = some out →
      ∀ px py, out.1 px py = true → px < s.width ∧ py < s.height) := by
  constructor
  · intro tx ty
    exact damage_hash_tile_eq_rowChain h s tx ty b hh
  · intro out hout px py hpt
    rw [damage_refine_out h s r hint b hw hh] at hout
    injection hout with hout
    subst hout
    have hpt' : ((refineOut h s r b).1 px py &&
        inRect 0 0 s.width s.height px py) = true := hpt
    simp only [Bool.and_eq_true] at hpt'
    have hin := hpt'.2
    simp only [inRect, Bool.and_eq_true, decide_eq_true_eq] at hin
    omega

/-- C5 witness. -/
theorem c5_edge_tiles_clipped_witness :
    (∀ tx ty, damage_hash_tile hashRowCount refOne tx ty bOne
        = rowChain hashRowCount HASH_SEED (tileRows refOne bOne tx ty)) ∧
    (∀ out, damage_refine hashRowCount refOne emptyRegion emptyRegion bOne = some out →
      ∀ px py, out.1 px py = true → px < refOne.width ∧ py < refOne.height) :=
  c5_edge_tiles_clipped hashRowCount refOne emptyRegion emptyRegion bOne
    (by decide) (by decide)

/-- C6: a tile's hash is computed by hashing the tile's rows independently
and chaining — each row's hash seeds the next row's hash, the first row
starting from the fixed seed constant `HASH_SEED` — and consequently the
hash is determined by the logical concatenation of the tile's rows: two
buffers whose tile content concatenates to the same byte sequence hash
identically. -/
theorem c6_chained_row_hashing (h : HashFn) (self : DamageRefinery)
    (tx ty : Nat) (b : WvBuffer) (hh : self.height = b.height) :
    damage_hash_tile h self tx ty b = rowChain h HASH_SEED (tileRows self b tx ty) ∧
    (∀ b2, self.height = b2.height →
      (tileRows self b tx ty).flatten = (tileRows self b2 tx ty).flatten →
      damage_hash_tile h self tx ty b = damage_hash_tile h self tx ty b2) := by
  refine ⟨damage_hash_tile_eq_rowChain h self tx ty b hh, ?_⟩
  intro b2 hh2 hflat
  have hrows : tileRows self b tx ty = tileRows self b2 tx ty :=
    eq_of_flatten_eq _ _ (tileRows_shape self b b2 tx ty) hflat
  rw [damage_hash_tile_eq_rowChain h self tx ty b hh,
      damage_hash_tile_eq_rowChain h self tx ty b2 hh2, hrows]

/-- C6 witness. -/
theorem c6_chained_row_hashing_witness :
    damage_hash_tile hashRowCount refOne 0 0 bOne
        = rowChain hashRowCount HASH_SEED (tileRows refOne bOne 0 0) ∧
    (∀ b2, refOne.height = b2.height →
      (tileRows refOne bOne 0 0).flatten = (tileRows refOne b2 0 0).flatten →
      damage_hash_tile hashRowCount refOne 0 0 bOne
        = damage_hash_tile hashRowCount refOne 0 0 b2) :=
  c6_chained_row_hashing hashRowCount refOne 0 0 bOne (by decide)

/-- A top-down buffer and a y-inverted buffer with the same logical pixel
content have identical logical tile rows. -/
theorem tileRows_y_inversion (s : DamageRefinery) (b1 b2 : WvBuffer)
    (hinv1 : b1.y_inverted = false) (hinv2 : b2.y_inverted = true)
    (hh2 : b2.height = b1.height) (hst : b2.stride = b1.stride)
    (hsh : s.height = b1.height)
    (hpix : ∀ y, y < b1.height → ∀ x, x < s.width →
      b2.pixels ((b1.height - 1 - y) * (b1.stride / 4) + x)
        = b1.pixels (y * (b1.stride / 4) + x)) :
    ∀ tx ty, tileRows s b1 tx ty = tileRows s b2 tx ty := by
  intro tx ty
  unfold tileRows
  apply List.map_congr_left
  intro dy hdy
  rw [List.mem_range] at hdy
  unfold logicalRow
  dsimp only
  rw [hinv1, hinv2]
  simp only [Bool.false_eq_true, if_false, if_true]
  apply List.map_congr_left
  intro i hi
  rw [List.mem_range] at hi
  have hy : ty * 32 + dy < b1.height := by omega
  have hx : tx * 32 + i < s.width := by omega
  rw [hh2, hst]
  have hp := hpix (ty * 32 + dy) hy (tx * 32 + i) hx
  rw [Nat.add_assoc, Nat.add_assoc]
  exact hp.symm

/-- Folding the tile loop over two buffers that hash identically (tile by
tile, for any store of these dimensions) gives identical results. -/
theorem fold_congr_buffer (h : HashFn) (b1 b2 : WvBuffer) (wd ht : Nat)
    (hhash : ∀ (s' : DamageRefinery), s'.width = wd → s'.height = ht →
      ∀ tx ty, damage_hash_tile h s' tx ty b1 = damage_hash_tile h s' tx ty b2) :
    ∀ (L : List (Nat × Nat)) (a : Region × DamageRefinery),
      a.2.width = wd → a.2.height = ht →
      L.foldl (refineStep h b1) a = L.foldl (refineStep h b2) a
  | [], _, _, _ => rfl
  | p :: L, a, hW, hH => by
    simp only [List.foldl_cons]
    have hstep : refineStep h b1 a p = refineStep h b2 a p := by
      show damage_refine_tile h a.2 a.1 p.1 p.2 b1
        = damage_refine_tile h a.2 a.1 p.1 p.2 b2
      unfold damage_refine_tile
      rw [hhash a.2 hW hH p.1 p.2]
    rw [hstep]
    exact fold_congr_buffer h b1 b2 wd ht hhash L (refineStep h b2 a p)
      ((refineStep_width h b2 a p).trans hW) ((refineStep_height h b2 a p).trans hH)

/-- C7: a top-down buffer and a y-inverted buffer (inverted flag set,
matching stride) holding logically identical pixel content produce
identical hashes for every tile, and `damage_refine` produces identical
results — the same damaged region and the same hash-store updates — from
the same prior state. -/
theorem c7_y_inversion_equivalence (h : HashFn) (s : DamageRefinery)
    (r hint : Region) (b1 b2 : WvBuffer)
    (hinv1 : b1.y_inverted = false) (hinv2 : b2.y_inverted = true)
    (hw2 : b2.width = b1.width) (hh2 : b2.height = b1.height)
    (hst : b2.stride = b1.stride) (hsh : s.height = b1.height)
    (hpix : ∀ y, y < b1.height → ∀ x, x < s.width →
      b2.pixels ((b1.height - 1 - y) * (b1.stride / 4) + x)
        = b1.pixels (y * (b1.stride / 4) + x)) :
    (∀ tx ty, damage_hash_tile h s tx ty b1 = damage_hash_tile h s tx ty b2) ∧
    damage_refine h s r hint b1 = damage_refine h s r hint b2 := by
  have hhash : ∀ (s' : DamageRefinery), s'.width = s.width → s'.height = s.height →
      ∀ tx ty, damage_hash_tile h s' tx ty b1 = damage_hash_tile h s' tx ty b2 := by
    intro s' hW hH tx ty
    have hrows := tileRows_y_inversion s' b1 b2 hinv1 hinv2 hh2 hst
      (hH.trans hsh) (fun y hy x hx => hpix y hy x (by omega)) tx ty
    rw [damage_hash_tile_eq_rowChain h s' tx ty b1 (hH.trans hsh),
        damage_hash_tile_eq_rowChain h s' tx ty b2 ((hH.trans hsh).trans hh2.symm),
        hrows]
  refine ⟨hhash s rfl rfl, ?_⟩
  by_cases hc : s.width = b1.width ∧ s.height = b1.height
  · rw [damage_refine_out h s r hint b1 hc.1 hc.2,
        damage_refine_out h s r hint b2 (hc.1.trans hw2.symm) (hc.2.trans hh2.symm)]
    have hout : refineOut h s r b1 = refineOut h s r b2 :=
      fold_congr_buffer h b1 b2 s.width s.height hhash _ (r, s) rfl rfl
    rw [hout]
  · unfold damage_refine
    rw [if_neg hc, if_neg (fun hc2 => hc ⟨hc2.1.trans hw2, hc2.2.trans hh2⟩)]

/-- C7 witness. -/
theorem c7_y_inversion_equivalence_witness :
    (∀ tx ty, damage_hash_tile hashRowCount refOne tx ty bOne
        = damage_hash_tile hashRowCount refOne tx ty bOneInv) ∧
    damage_refine hashRowCount refOne emptyRegion emptyRegion bOne
      = damage_refine hashRowCount refOne emptyRegion emptyRegion bOneInv :=
  c7_y_inversion_equivalence hashRowCount refOne emptyRegion emptyRegion bOne bOneInv
    (by decide) (by decide) (by decide) (by decide) (by decide) (by decide)
    (by decide)

/-- C3: for a freshly initialised refinery (all stored hashes zero), the
first refine call on any buffer none of whose tiles hashes to zero yields
a damaged region equal to the full buffer rectangle. -/
theorem c3_first_frame_fully_damaged (h : HashFn) (b : WvBuffer) (hint : Region)
    (hz : ∀ tx, tx < udivUp b.width 32 → ∀ ty, ty < udivUp b.height 32 →
      damage_hash_tile h (damage_refinery_init b.width b.height) tx ty b ≠ 0) :
    ∃ out, damage_refine h (damage_refinery_init b.width b.height)
        emptyRegion hint b = some out ∧
      ∀ px py, out.1 px py = inRect 0 0 b.width b.height px py := by
  refine ⟨_, damage_refine_out h (damage_refinery_init b.width b.height)
    emptyRegion hint b rfl rfl, ?_⟩
  intro px py
  show ((refineOut h (damage_refinery_init b.width b.height) emptyRegion b).1 px py &&
      inRect 0 0 (damage_refinery_init b.width b.height).width
        (damage_refinery_init b.width b.height).height px py)
    = inRect 0 0 b.width b.height px py
  rw [show (damage_refinery_init b.width b.height).width = b.width from rfl,
      show (damage_refinery_init b.width b.height).height = b.height from rfl]
  cases hin : inRect 0 0 b.width b.height px py
  · rw [Bool.and_false]
  · rw [Bool.and_true]
    have hb : px < b.width ∧ py < b.height := by
      simp only [inRect, Bool.and_eq_true, decide_eq_true_eq] at hin
      omega
    apply (refineOut_region_iff h (damage_refinery_init b.width b.height)
      emptyRegion b px py).mpr
    refine Or.inr ⟨px / 32, py / 32, ?_, ?_, ?_, ?_⟩
    · show px / 32 < udivUp b.width 32
      have hu : udivUp b.width 32 = (b.width + 31) / 32 := rfl
      omega
    · show py / 32 < udivUp b.height 32
      have hu : udivUp b.height 32 = (b.height + 31) / 32 := rfl
      omega
    · show damage_hash_tile h (damage_refinery_init b.width b.height)
        (px / 32) (py / 32) b ≠ 0
      exact hz (px / 32) (by
          have hu : udivUp b.width 32 = (b.width + 31) / 32 := rfl
          omega)
        (py / 32) (by
          have hu : udivUp b.height 32 = (b.height + 31) / 32 := rfl
          omega)
    · simp only [inRect, Bool.and_eq_true, decide_eq_true_eq]
      omega

/-- C3 witness. -/
theorem c3_first_frame_fully_damaged_witness :
    ∃ out, damage_refine hashRowCount
        (damage_refinery_init bOne.width bOne.height) emptyRegion emptyRegion bOne
        = some out ∧
      ∀ px py, out.1 px py = inRect 0 0 bOne.width bOne.height px py :=
  c3_first_frame_fully_damaged hashRowCount bOne emptyRegion (by decide)

/-- With a jointly injective hash function, tiles with different logical
content hash differently. -/
theorem damage_hash_tile_ne_of_rows_ne (h : HashFn)
    (hinj : ∀ r1 s1 r2 s2, h r1 s1 = h r2 s2 → r1 = r2 ∧ s1 = s2)
    (s : DamageRefinery) (b1 b2 : WvBuffer) (tx ty : Nat)
    (hh1 : s.height = b1.height) (hh2 : s.height = b2.height)
    (hne : tileRows s b1 tx ty ≠ tileRows s b2 tx ty) :
    damage_hash_tile h s tx ty b1 ≠ damage_hash_tile h s tx ty b2 := by
  intro he
  rw [damage_hash_tile_eq_rowChain h s tx ty b1 hh1,
      damage_hash_tile_eq_rowChain h s tx ty b2 hh2] at he
  have hlen : (tileRows s b1 tx ty).length = (tileRows s b2 tx ty).length := by
    rw [tileRows_length, tileRows_length]
  exact hne (rowChain_inj h hinj _ _ _ _ hlen he).1

/-- C1: if the stored hashes reflect a previous buffer and exactly one
tile's logical pixel content differs in the current buffer, refining from
an empty input region reports exactly that tile's rectangle, trimmed to
the buffer bounds.  (The hash function is any deterministic hash that is
jointly injective in span and seed.) -/
theorem c1_single_tile_locality (h : HashFn)
    (hinj : ∀ r1 s1 r2 s2, h r1 s1 = h r2 s2 → r1 = r2 ∧ s1 = s2)
    (s : DamageRefinery) (prev cur : WvBuffer) (hint : Region)
    (hw : s.width = cur.width) (hh : s.height = cur.height)
    (hph : s.height = prev.height)
    (hstore : ∀ tx, tx < udivUp s.width 32 → ∀ ty, ty < udivUp s.height 32 →
      s.hashes (damage_tile_hash_ptr s tx ty) = damage_hash_tile h s tx ty prev)
    (tx0 ty0 : Nat) (htx0 : tx0 < udivUp s.width 32)
    (hty0 : ty0 < udivUp s.height 32)
    (hdiff : tileRows s cur tx0 ty0 ≠ tileRows s prev tx0 ty0)
    (hsame : ∀ tx, tx < udivUp s.width 32 → ∀ ty, ty < udivUp s.height 32 →
      ¬(tx = tx0 ∧ ty = ty0) → tileRows s cur tx ty = tileRows s prev tx ty) :
    ∃ out, damage_refine h s emptyRegion hint cur = some out ∧
      ∀ px py, out.1 px py =
        (inRect (tx0 * 32) (ty0 * 32) 32 32 px py &&
          inRect 0 0 s.width s.height px py) := by
  refine ⟨_, damage_refine_out h s emptyRegion hint cur hw hh, ?_⟩
  intro px py
  show ((refineOut h s emptyRegion cur).1 px py &&
      inRect 0 0 s.width s.height px py) = _
  have hmain : (refineOut h s emptyRegion cur).1 px py
      = inRect (tx0 * 32) (ty0 * 32) 32 32 px py := by
    apply Bool.coe_iff_coe.mp
    rw [refineOut_region_iff]
    constructor
    · rintro (hfalse | ⟨tx, ty, htx, hty, hd, hin⟩)
      · exact absurd hfalse (by simp [emptyRegion])
      · by_cases heq : tx = tx0 ∧ ty = ty0
        · obtain ⟨rfl, rfl⟩ := heq
          exact hin
        · exfalso
          apply hd
          rw [hstore tx htx ty hty]
          rw [damage_hash_tile_eq_rowChain h s tx ty cur hh,
              damage_hash_tile_eq_rowChain h s tx ty prev hph,
              hsame tx htx ty hty heq]
    · intro hin
      refine Or.inr ⟨tx0, ty0, htx0, hty0, ?_, hin⟩
      rw [hstore tx0 htx0 ty0 hty0]
      exact damage_hash_tile_ne_of_rows_ne h hinj s cur prev tx0 ty0 hh hph hdiff
  rw [hmain]

/-- C1 witness: a 1x33 frame (two vertically stacked tiles) whose second
tile's single in-bounds pixel changed. -/
theorem c1_single_tile_locality_witness :
    ∃ out, damage_refine hashInj sW emptyRegion emptyRegion curW = some out ∧
      ∀ px py, out.1 px py =
        (inRect (0 * 32) (1 * 32) 32 32 px py &&
          inRect 0 0 sW.width sW.height px py) :=
  c1_single_tile_locality hashInj hashInj_injective sW prevW curW emptyRegion
    (by decide) (by decide) (by decide)
    (by
      intro tx htx ty hty
      have h1 : udivUp sW.width 32 = 1 := rfl
      have h2 : udivUp sW.height 32 = 2 := rfl
      rw [h1] at htx
      rw [h2] at hty
      interval_cases tx <;> interval_cases ty <;>
        exact damage_hash_tile_congr hashInj (damage_refinery_init 1 33) sW 0 _ prevW
          rfl rfl)
    0 1 (by decide) (by decide)
    (by decide)
    (by decide)
